import Mathlib

/-!
# Run-length codec of `src/main.c`: embedding and properties

A shallow embedding of the file codec of `src/main.c`.

* A byte (`unsigned char`) is a `Fin 256`; a C string is a `List Char`
  (the characters before the terminating NUL).
* The file system is explicit state: `World` maps names to contents and
  records the names `fopen(name, "wb")` cannot create.
* `compress` and `expand` take the world and the file name and return what
  they did: the branch they left through, the file they opened for writing,
  the bytes they wrote, and the world afterwards.
* `fwrite(&count, sizeof(unsigned char), 1, output)` writes the first byte of
  the `int` counter; on the little-endian targets the program is built for
  that is `count % 256`.
* `compress` never checks the result of its first `fread`, so on an empty
  file `current` keeps whatever the stack held; that indeterminate byte is
  the parameter `uninit`.
-/

namespace RLE

/-- An `unsigned char`. -/
abbrev Byte := Fin 256

/-- A C string: its characters up to the terminating NUL. -/
abbrev CStr := List Char

/-- The `magic` array of `expand` (and of `check_magic`): `!RLE`. -/
def magic : List Byte := [0x21, 0x52, 0x4C, 0x45]

/-- The literal `".rle"`. -/
def rleExt : CStr := ['.', 'r', 'l', 'e']

/-! ## The file system as state -/

/-- The files on disk (first entry for a name wins) and the names that
`fopen(name, "wb")` fails on. -/
structure World where
  files : List (CStr × List Byte)
  locked : List CStr
deriving DecidableEq

/-- The contents `fopen(name, "rb")` gives access to; `none` is a `NULL` stream. -/
def World.read (w : World) (name : CStr) : Option (List Byte) :=
  w.files.lookup name

/-- Whether `fopen(name, "wb")` returns a stream. -/
def World.canCreate (w : World) (name : CStr) : Bool :=
  !(w.locked.contains name)

/-- The world after `fopen(name, "wb")`, the writes of `bytes`, and `fclose`. -/
def World.write (w : World) (name : CStr) (bytes : List Byte) : World :=
  { w with files := (name, bytes) :: w.files }

/-! ## Helper functions (`src/main.c` lines 79-131) -/

/-- The function `filename_add_ext`: `strcpy` then `strcat`. -/
def filename_add_ext (filename ext : CStr) : CStr :=
  filename ++ ext

/-- The library call `strrchr(s, c)`, as the offset of the last `c` in `s`
(`none` for `NULL`). -/
def strrchr : CStr → Char → Option Nat
  | [], _ => none
  | x :: xs, c =>
    match strrchr xs c with
    | some i => some (i + 1)
    | none => if x = c then some 0 else none

/-- The function `filename_rm_ext`: cut the copy at its last `'.'`, if any. -/
def filename_rm_ext (filename : CStr) : CStr :=
  match strrchr filename '.' with
  | some i => filename.take i
  | none => filename

/-- The function `check_ext`:
`len >= 4 && strcmp(filename + len - 4, ".rle") == 0`, as 1 or 0. -/
def check_ext (filename : CStr) : Nat :=
  let len := filename.length
  if len ≥ 4 ∧ filename.drop (len - 4) = rleExt then 1 else 0

/-! ## `compress` (lines 150-187) -/

/-- One flush of the pending run: the two `fwrite` calls of lines 173-174 and
180-181. The first writes the low byte of the `int` counter. -/
def flush (run : Nat × Byte) : List Byte :=
  [Fin.ofNat run.1, run.2]

/-- The `while` loop of lines 169-178 followed by the final flush of lines
180-181, from the state `current`, `count` on the bytes still unread. The
result lists the runs flushed, each as the counter and the value at the
moment of the flush. -/
def compress_loop : Byte → Nat → List Byte → List (Nat × Byte)
  | current, count, [] => [(count, current)]
  | current, count, next :: rest =>
    if next = current ∧ count < 255 then
      compress_loop current (count + 1) rest
    else
      (count, current) :: compress_loop next 1 rest

/-- The runs `compress` flushes for the file contents `input` (lines 165-181):
`count = 1`, one unchecked `fread` into `current`, then the loop. On an empty
file the `fread` stores nothing and `current` is `uninit`. -/
def compress_runs (uninit : Byte) (input : List Byte) : List (Nat × Byte) :=
  match input with
  | [] => compress_loop uninit 1 []
  | first :: rest => compress_loop first 1 rest

/-- Every byte `compress` writes to its output file for the contents `input`. -/
def compress_bytes (uninit : Byte) (input : List Byte) : List Byte :=
  (compress_runs uninit input).flatMap flush

/-- The branch through which `compress` returns. -/
inductive CompressStatus where
  | inputOpenFailed
  | outputCreateFailed
  | compressed
deriving DecidableEq

/-- What a call of `compress` did. -/
structure CompressResult where
  status : CompressStatus
  opened : Option CStr
  written : List Byte
  world : World
deriving DecidableEq

/-- The function `compress`. -/
def compress (w : World) (uninit : Byte) (filename : CStr) : CompressResult :=
  match w.read filename with
  | none => ⟨.inputOpenFailed, none, [], w⟩
  | some input =>
    let outName := filename_add_ext filename rleExt
    if w.canCreate outName then
      let bytes := compress_bytes uninit input
      ⟨.compressed, some outName, bytes, w.write outName bytes⟩
    else
      ⟨.outputCreateFailed, none, [], w⟩

/-! ## `expand` (lines 204-270) -/

/-- The branch through which `expand` returns. The two format branches print
the same message; `shortFile` is the failed `fread` of line 240 and `badMagic`
the failed `memcmp` of line 248. -/
inductive ExpandStatus where
  | badExtension
  | inputOpenFailed
  | outputCreateFailed
  | shortFile
  | badMagic
  | expanded
deriving DecidableEq

/-- Lines 239-262 on the contents of the input file: the branch taken and the
bytes written to the output file. After the `fseek` of line 256 both files are
closed; nothing is read past the magic and nothing is written. -/
def expand_stream (input : List Byte) : ExpandStatus × List Byte :=
  if input.length < 4 then
    (.shortFile, [])
  else if input.take 4 ≠ magic then
    (.badMagic, [])
  else
    (.expanded, [])

/-- What a call of `expand` did: `printed` is the name in the final
`Output filename:` line. -/
structure ExpandResult where
  status : ExpandStatus
  opened : Option CStr
  written : List Byte
  printed : Option CStr
  world : World
deriving DecidableEq

/-- The function `expand`. `newFilename` is the supplied name with `".rle"`
appended (lines 210-212); it is the name opened for writing (line 231), and
only after both files are closed is it cut at its last `'.'` for the
message (lines 264-267). -/
def expand (w : World) (filename : CStr) : ExpandResult :=
  let newFilename := filename ++ rleExt
  if check_ext filename = 0 then
    ⟨.badExtension, none, [], none, w⟩
  else
    match w.read filename with
    | none => ⟨.inputOpenFailed, none, [], none, w⟩
    | some input =>
      if w.canCreate newFilename then
        let r := expand_stream input
        let w' := w.write newFilename r.2
        match r.1 with
        | .expanded =>
          ⟨.expanded, some newFilename, r.2, some (filename_rm_ext newFilename), w'⟩
        | s => ⟨s, some newFilename, r.2, none, w'⟩
      else
        ⟨.outputCreateFailed, none, [], none, w⟩

/-! ## `debug` and `generate` (lines 279-340) -/

/-- The branch through which `debug` returns. -/
inductive DebugStatus where
  | openFailed
  | dumped
deriving DecidableEq

/-- The function `debug`: it only reads the file and prints; the text of the
dump is not part of the state. -/
def debug (w : World) (filename : CStr) : DebugStatus × World :=
  match w.read filename with
  | none => (.openFailed, w)
  | some _ => (.dumped, w)

/-- The array `test` of `generate` without its terminating NUL: the
`sizeof(test) - 1` bytes written. -/
def test : List Byte :=
  [0xEE, 0x5D, 0x41, 0x41, 0x41, 0x8E, 0x2A, 0x3A, 0x3A, 0x3A, 0x3A, 0xE8, 0xBD,
   0x22, 0x88, 0x0A, 0xAC, 0xAC, 0xAC, 0x9A, 0x51, 0x3A, 0x3A, 0x3A, 0xAA, 0xAA,
   0xAA, 0x31, 0x61, 0x27, 0xA7, 0x7E, 0x6D, 0x52, 0xD8, 0x74, 0x6A, 0x6F, 0x6E,
   0x4E, 0xE8, 0x90, 0xA0, 0x7D, 0x88, 0x64, 0x12, 0x21, 0xDB, 0xAE]
  ++ List.replicate 46 0xF7 ++ [0xAA, 0xAA, 0xBB, 0xBB]

/-- The branch through which `generate` returns. -/
inductive GenerateStatus where
  | openFailed
  | generated
deriving DecidableEq

/-- The function `generate`. -/
def generate (w : World) (filename : CStr) : GenerateStatus × World :=
  if w.canCreate filename then
    (.generated, w.write filename test)
  else
    (.openFailed, w)

/-! ## `get_parms` and `main` (lines 10-72, 347-371) -/

/-- The structure `struct parms`; `mode` is an `unsigned char`. -/
structure Parms where
  filename : CStr
  mode : Nat
deriving DecidableEq

/-- The character `s[i]` of a C string, for `i` up to its length: the
terminating NUL at `i = strlen(s)`. -/
def char_at (s : CStr) (i : Nat) : Char :=
  s.getD i (Char.ofNat 0)

/-- The loop of lines 61-62, `while (modes[i] && modes[i] != c) i++`, from
`i = 0`: the value of `i` when it stops. -/
def mode_scan (c : Char) : CStr → Nat
  | [] => 0
  | m :: ms => if m ≠ c then mode_scan c ms + 1 else 0

/-- The function `get_parms`: its return value and the structure behind
`parms` afterwards. `argc` is the length of `argv`. The assignment
`parms->mode = i` stores `i` in an `unsigned char`, and it is the stored value
that is compared with `strlen(modes)`. -/
def get_parms (parms : Parms) (modes : CStr) (argv : List CStr) : Nat × Parms :=
  if argv.length ≠ 3 ∨ char_at (argv.getD 1 []) 0 ≠ '-' then
    (0, parms)
  else
    let i := mode_scan (char_at (argv.getD 1 []) 1) modes
    let stored := i % 256
    if stored = modes.length then
      (0, { parms with mode := stored })
    else
      (1, { filename := argv.getD 2 [], mode := stored })

/-- The literal `"cxdg"` of `main`. -/
def modeLetters : CStr := ['c', 'x', 'd', 'g']

/-- The value of `EXIT_FAILURE` in `<stdlib.h>`. -/
def EXIT_FAILURE : Nat := 1

/-- The array `action` of `main`: the four functions, each as its effect on
the world. -/
def action : List (World → Byte → CStr → World) :=
  [fun w uninit f => (compress w uninit f).world,
   fun w _ f => (expand w f).world,
   fun w _ f => (debug w f).2,
   fun w _ f => (generate w f).2]

/-- The function `main`: its exit status and the world afterwards. `parms`
is the indeterminate initial content of the local structure. The result is
`none` when `action[parms.mode]` would index outside the array. -/
def main (w : World) (uninit : Byte) (parms : Parms) (argv : List CStr) :
    Option (Nat × World) :=
  let r := get_parms parms modeLetters argv
  if r.1 = 0 then
    some (EXIT_FAILURE, w)
  else
    match action.get? r.2.mode with
    | some act => some (0, act w uninit r.2.filename)
    | none => none

/-! ## Properties of the run loop -/

theorem compress_loop_count_range (rest : List Byte) :
    ∀ (current : Byte) (count : Nat), 1 ≤ count → count ≤ 255 →
      ∀ run ∈ compress_loop current count rest, 1 ≤ run.1 ∧ run.1 ≤ 255 := by
  induction rest with
  | nil =>
    intro current count h1 h2 run hr
    simp only [compress_loop, List.mem_singleton] at hr
    subst hr
    exact ⟨h1, h2⟩
  | cons next rest ih =>
    intro current count h1 h2 run hr
    unfold compress_loop at hr
    split at hr
    · exact ih current (count + 1) (by omega) (by omega) run hr
    · rcases List.mem_cons.1 hr with h | h
      · subst h
        exact ⟨h1, h2⟩
      · exact ih next 1 (by omega) (by omega) run h

theorem compress_runs_count_range (uninit : Byte) (input : List Byte) :
    ∀ run ∈ compress_runs uninit input, 1 ≤ run.1 ∧ run.1 ≤ 255 := by
  cases input with
  | nil => exact compress_loop_count_range [] uninit 1 (by omega) (by omega)
  | cons first rest =>
    exact compress_loop_count_range rest first 1 (by omega) (by omega)

theorem compress_loop_replicate (v : Byte) (m : Nat) :
    ∀ count : Nat, 1 ≤ count → count ≤ 255 →
      compress_loop v count (List.replicate m v)
        = List.replicate ((count + m) / 255) (255, v)
          ++ (if (count + m) % 255 ≠ 0 then [((count + m) % 255, v)] else []) := by
  induction m with
  | zero =>
    intro count h1 h2
    rcases Nat.lt_or_ge count 255 with h | h
    · have hd : count / 255 = 0 := by omega
      have hm : count % 255 = count := by omega
      have hne : count ≠ 0 := by omega
      simp [compress_loop, hd, hm, hne]
    · have hc : count = 255 := by omega
      subst hc
      simp [compress_loop]
  | succ m ih =>
    intro count h1 h2
    rw [List.replicate_succ]
    unfold compress_loop
    rcases Nat.lt_or_ge count 255 with h | h
    · rw [if_pos ⟨rfl, h⟩, ih (count + 1) (by omega) (by omega)]
      have e : count + 1 + m = count + (m + 1) := by omega
      rw [e]
    · have hc : count = 255 := by omega
      subst hc
      rw [if_neg (by omega), ih 1 (by omega) (by omega)]
      have hd : (255 + (m + 1)) / 255 = (1 + m) / 255 + 1 := by omega
      have hm : (255 + (m + 1)) % 255 = (1 + m) % 255 := by omega
      rw [hd, hm, List.replicate_succ, List.cons_append]

theorem compress_loop_chain (rest : List Byte) :
    ∀ current : Byte, List.Chain (fun a b => a ≠ b) current rest →
      compress_loop current 1 rest = (current :: rest).map fun v => (1, v) := by
  induction rest with
  | nil =>
    intro current _
    rfl
  | cons next rest ih =>
    intro current h
    rw [List.chain_cons] at h
    unfold compress_loop
    rw [if_neg (fun hc => h.1 hc.1.symm), ih next h.2]
    rfl

theorem expand_stream_writes_nothing (input : List Byte) :
    (expand_stream input).2 = [] := by
  unfold expand_stream
  split
  · rfl
  · split <;> rfl

theorem expand_opened_name (w : World) (filename : CStr) :
    (expand w filename).opened = none
    ∨ (expand w filename).opened = some (filename ++ rleExt) := by
  unfold expand
  simp only
  split
  · exact Or.inl rfl
  · split
    · exact Or.inl rfl
    · split
      · right
        split <;> rfl
      · exact Or.inl rfl

theorem strrchr_append_rleExt (f : CStr) :
    strrchr (f ++ rleExt) '.' = some f.length := by
  induction f with
  | nil => decide
  | cons x xs ih =>
    show (match strrchr (xs ++ rleExt) '.' with
      | some i => some (i + 1)
      | none => if x = '.' then some 0 else none) = some (xs.length + 1)
    rw [ih]

theorem check_ext_ne_zero_iff (s : CStr) :
    check_ext s ≠ 0 ↔ rleExt <:+ s := by
  unfold check_ext
  constructor
  · intro h
    by_cases hc : s.length ≥ 4 ∧ s.drop (s.length - 4) = rleExt
    · rw [← hc.2]
      exact List.drop_suffix _ _
    · simp [hc] at h
  · rintro ⟨t, rfl⟩
    have hl : (t ++ rleExt).length - 4 = t.length := by
      simp [rleExt]
    have hc : (t ++ rleExt).length ≥ 4
        ∧ (t ++ rleExt).drop ((t ++ rleExt).length - 4) = rleExt := by
      refine ⟨by simp [rleExt], ?_⟩
      rw [hl, List.drop_left]
    rw [if_pos hc]
    decide

theorem mode_scan_modeLetters (c : Char) :
    (c = 'c' ∧ mode_scan c modeLetters = 0)
    ∨ (c = 'x' ∧ mode_scan c modeLetters = 1)
    ∨ (c = 'd' ∧ mode_scan c modeLetters = 2)
    ∨ (c = 'g' ∧ mode_scan c modeLetters = 3)
    ∨ (c ∉ modeLetters ∧ mode_scan c modeLetters = 4) := by
  by_cases h0 : c = 'c'
  · subst h0
    exact Or.inl ⟨rfl, by decide⟩
  by_cases h1 : c = 'x'
  · subst h1
    exact Or.inr (Or.inl ⟨rfl, by decide⟩)
  by_cases h2 : c = 'd'
  · subst h2
    exact Or.inr (Or.inr (Or.inl ⟨rfl, by decide⟩))
  by_cases h3 : c = 'g'
  · subst h3
    exact Or.inr (Or.inr (Or.inr (Or.inl ⟨rfl, by decide⟩)))
  refine Or.inr (Or.inr (Or.inr (Or.inr ⟨?_, ?_⟩)))
  · simp [modeLetters, h0, h1, h2, h3]
  · simp [mode_scan, modeLetters, Ne.symm h0, Ne.symm h1, Ne.symm h2, Ne.symm h3]

theorem get_parms_accepts (parms : Parms) (argv : List CStr)
    (h : (get_parms parms modeLetters argv).1 ≠ 0) :
    argv.length = 3 ∧ char_at (argv.getD 1 []) 0 = '-'
    ∧ char_at (argv.getD 1 []) 1 ∈ modeLetters
    ∧ (get_parms parms modeLetters argv).1 = 1
    ∧ (get_parms parms modeLetters argv).2.mode
        = mode_scan (char_at (argv.getD 1 []) 1) modeLetters
    ∧ (get_parms parms modeLetters argv).2.mode < 4
    ∧ (get_parms parms modeLetters argv).2.filename = argv.getD 2 [] := by
  unfold get_parms at h ⊢
  by_cases hc : argv.length ≠ 3 ∨ char_at (argv.getD 1 []) 0 ≠ '-'
  · rw [if_pos hc] at h
    exact absurd rfl h
  · rw [if_neg hc] at h ⊢
    have hlen : argv.length = 3 := by
      by_contra hn
      exact hc (Or.inl hn)
    have hdash : char_at (argv.getD 1 []) 0 = '-' := by
      by_contra hn
      exact hc (Or.inr hn)
    have hlet : modeLetters.length = 4 := rfl
    rcases mode_scan_modeLetters (char_at (argv.getD 1 []) 1) with
      ⟨hm, hs⟩ | ⟨hm, hs⟩ | ⟨hm, hs⟩ | ⟨hm, hs⟩ | ⟨hm, hs⟩
    · simp only [hs, hlet] at h ⊢
      exact ⟨hlen, hdash, by rw [hm]; decide, rfl, rfl,
        (by decide : (0 : Nat) < 4), rfl⟩
    · simp only [hs, hlet] at h ⊢
      exact ⟨hlen, hdash, by rw [hm]; decide, rfl, rfl,
        (by decide : (1 : Nat) < 4), rfl⟩
    · simp only [hs, hlet] at h ⊢
      exact ⟨hlen, hdash, by rw [hm]; decide, rfl, rfl,
        (by decide : (2 : Nat) < 4), rfl⟩
    · simp only [hs, hlet] at h ⊢
      exact ⟨hlen, hdash, by rw [hm]; decide, rfl, rfl,
        (by decide : (3 : Nat) < 4), rfl⟩
    · simp only [hs, hlet] at h
      exact absurd rfl h

theorem main_of_accepted (w : World) (uninit : Byte) (parms : Parms)
    (argv : List CStr) (h : (get_parms parms modeLetters argv).1 ≠ 0) :
    ∃ w' : World, main w uninit parms argv = some (0, w') := by
  obtain ⟨_, _, _, _, _, hlt, _⟩ := get_parms_accepts parms argv h
  unfold main
  simp only [h, if_false]
  have hlen : action.length = 4 := rfl
  cases hact : action.get? (get_parms parms modeLetters argv).2.mode with
  | none =>
    rw [List.get?_eq_none] at hact
    omega
  | some act => exact ⟨_, rfl⟩

theorem compress_loop_unfold (rest : List Byte) :
    ∀ (current : Byte) (count : Nat),
      (compress_loop current count rest).flatMap (fun run => List.replicate run.1 run.2)
        = List.replicate count current ++ rest := by
  induction rest with
  | nil =>
    intro current count
    simp [compress_loop]
  | cons next rest ih =>
    intro current count
    unfold compress_loop
    split
    · rename_i h
      rw [ih current (count + 1), h.1, List.replicate_succ', List.append_assoc]
      rfl
    · rw [List.flatMap_cons, ih next 1]
      rfl

theorem compress_loop_head (rest : List Byte) :
    ∀ (current : Byte) (count : Nat),
      ∃ (k : Nat) (tl : List (Nat × Byte)),
        compress_loop current count rest = (k, current) :: tl := by
  induction rest with
  | nil =>
    intro current count
    exact ⟨count, [], rfl⟩
  | cons next rest ih =>
    intro current count
    unfold compress_loop
    split
    · exact ih current (count + 1)
    · exact ⟨count, _, rfl⟩

theorem compress_loop_greedy (rest : List Byte) :
    ∀ (current : Byte) (count : Nat), count ≤ 255 →
      List.Chain' (fun r1 r2 : Nat × Byte => r1.2 = r2.2 → r1.1 = 255)
        (compress_loop current count rest) := by
  induction rest with
  | nil =>
    intro current count _
    exact List.chain'_singleton _
  | cons next rest ih =>
    intro current count hc
    unfold compress_loop
    split
    · rename_i h
      exact ih current (count + 1) (by omega)
    · rename_i h
      obtain ⟨k, tl, hk⟩ := compress_loop_head rest next 1
      have hch := ih next 1 (by omega)
      rw [hk] at hch ⊢
      refine List.Chain'.cons ?_ hch
      intro heq
      have heq' : next = current := heq.symm
      by_contra hne
      exact h ⟨heq', by omega⟩

theorem compress_loop_length_le (rest : List Byte) :
    ∀ (current : Byte) (count : Nat),
      1 ≤ (compress_loop current count rest).length
      ∧ (compress_loop current count rest).length ≤ rest.length + 1 := by
  induction rest with
  | nil =>
    intro current count
    simp [compress_loop]
  | cons next rest ih =>
    intro current count
    unfold compress_loop
    split
    · have := ih current (count + 1)
      simp only [List.length_cons]
      omega
    · have := ih next 1
      simp only [List.length_cons]
      omega

theorem compress_loop_length_eq_iff (rest : List Byte) :
    ∀ (current : Byte) (count : Nat), count < 255 →
      ((compress_loop current count rest).length = rest.length + 1
        ↔ List.Chain (fun a b => a ≠ b) current rest) := by
  induction rest with
  | nil =>
    intro current count _
    simp [compress_loop]
  | cons next rest ih =>
    intro current count hc
    unfold compress_loop
    rw [List.chain_cons]
    split
    · rename_i h
      have hle := (compress_loop_length_le rest current (count + 1)).2
      constructor
      · intro hl
        simp only [List.length_cons] at hl
        omega
      · intro hch
        exact absurd h.1.symm hch.1
    · rename_i h
      have hne : current ≠ next := by
        intro heq
        exact h ⟨heq.symm, hc⟩
      simp only [List.length_cons, Nat.add_right_cancel_iff]
      rw [ih next 1 (by omega)]
      exact ⟨fun hch => ⟨hne, hch⟩, fun hch => hch.2⟩

theorem flatMap_flush_length (runs : List (Nat × Byte)) :
    (runs.flatMap flush).length = 2 * runs.length := by
  induction runs with
  | nil => rfl
  | cons r rs ih =>
    rw [List.flatMap_cons, List.length_append, ih, List.length_cons]
    simp only [flush, List.length_cons, List.length_nil]
    omega

theorem expand_bad_extension_world (w : World) (filename : CStr)
    (h : check_ext filename = 0) :
    (expand w filename).world = w ∧ (expand w filename).written = [] := by
  unfold expand
  simp [h]

theorem flatMap_pairs_of_runs (runs : List (Nat × Byte)) :
    (runs.map fun run => ((Fin.ofNat run.1 : Byte), run.2)).flatMap
        (fun r => [r.1, r.2])
      = runs.flatMap flush := by
  induction runs with
  | nil => rfl
  | cons r rs ih =>
    rw [List.map_cons, List.flatMap_cons, List.flatMap_cons, ih]
    rfl

theorem flatMap_pairs_injective :
    ∀ l1 l2 : List (Byte × Byte),
      l1.flatMap (fun r => [r.1, r.2]) = l2.flatMap (fun r => [r.1, r.2]) → l1 = l2 := by
  intro l1
  induction l1 with
  | nil =>
    intro l2 h
    cases l2 with
    | nil => rfl
    | cons b bs =>
      rw [List.flatMap_cons] at h
      exact absurd h (by simp)
  | cons a as ih =>
    intro l2 h
    cases l2 with
    | nil =>
      rw [List.flatMap_cons] at h
      exact absurd h (by simp)
    | cons b bs =>
      rw [List.flatMap_cons, List.flatMap_cons] at h
      simp only [List.cons_append, List.nil_append, List.cons.injEq] at h
      obtain ⟨h1, h2, h3⟩ := h
      rw [Prod.ext h1 h2, ih bs h3]

/-! ## The claims -/

/-- C1 (round trip, violated by the code): for the one-byte file `10`,
`compress` writes the two bytes `01 10` with no magic in front, and `expand`
on that output stops at the failed four-byte read, writing nothing; the raw
byte is not recovered. For no file contents at all does `expand`, run on what
`compress` wrote, reach its success path with those contents written. -/
theorem roundtrip_single_byte_lost (uninit : Byte) :
    compress_bytes uninit [0x10] = [0x01, 0x10]
    ∧ expand_stream (compress_bytes uninit [0x10]) = (.shortFile, [])
    ∧ (expand (compress ⟨[(['a'], [0x10])], []⟩ uninit ['a']).world
        ['a', '.', 'r', 'l', 'e']).status = .shortFile
    ∧ (expand (compress ⟨[(['a'], [0x10])], []⟩ uninit ['a']).world
        ['a', '.', 'r', 'l', 'e']).written = []
    ∧ ∀ b : List Byte, expand_stream (compress_bytes uninit b) ≠ (.expanded, b) := by
  refine ⟨rfl, rfl, rfl, rfl, ?_⟩
  intro b h
  have h2 : (expand_stream (compress_bytes uninit b)).2 = [] :=
    expand_stream_writes_nothing _
  rw [h] at h2
  have hb : b = [] := h2
  subst hb
  have h3 : expand_stream (compress_bytes uninit []) = (.shortFile, []) := rfl
  rw [h3] at h
  exact absurd (congrArg Prod.fst h) (by decide)

/-- C2 (header presence, violated by the code): `compress` has no write of the
magic bytes; for the one-byte file `10` its whole output is `01 10`, which
does not begin with `21 52 4C 45`. -/
theorem compress_writes_no_magic (uninit : Byte) :
    compress_bytes uninit [0x10] = [0x01, 0x10]
    ∧ ¬ magic <+: compress_bytes uninit [0x10] := by
  refine ⟨rfl, ?_⟩
  have h : compress_bytes uninit [0x10] = [0x01, 0x10] := rfl
  rw [h]
  decide

/-- C3 (decoder expansion, violated by the code): on the magic followed by the
pair `(2, 0x41)`, `expand` leaves through its success path with nothing
written, not with the two bytes `41 41`. -/
theorem expand_stream_ignores_runs :
    expand_stream (magic ++ [0x02, 0x41]) = (.expanded, [])
    ∧ (expand_stream (magic ++ [0x02, 0x41])).2 ≠ List.replicate 2 0x41 := by
  decide

/-- C4 (run count range): every run `compress` flushes, for any file
contents, has a counter between 1 and 255, and the byte written for it is the
counter itself. -/
theorem compress_count_byte_range (uninit : Byte) (input : List Byte) :
    ∀ run ∈ compress_runs uninit input,
      1 ≤ run.1 ∧ run.1 ≤ 255 ∧ (flush run).map Fin.val = [run.1, run.2.val] := by
  intro run hr
  obtain ⟨h1, h2⟩ := compress_runs_count_range uninit input run hr
  refine ⟨h1, h2, ?_⟩
  simp only [flush, List.map_cons, List.map_nil, Fin.ofNat]
  rw [Nat.mod_eq_of_lt (by omega)]

theorem compress_count_byte_range_witness :
    ((2, 7) : Nat × Byte) ∈ compress_runs 0 [7, 7, 9]
    ∧ (1 ≤ 2 ∧ 2 ≤ 255
        ∧ (flush ((2, 7) : Nat × Byte)).map Fin.val = [2, (7 : Byte).val]) :=
  ⟨by decide, compress_count_byte_range 0 [7, 7, 9] (2, 7) (by decide)⟩

/-- C5 (run cap): for `n ≥ 1` copies of `v`, `compress` flushes `n / 255`
runs `(255, v)` and then, when `n % 255 ≠ 0`, the run `(n % 255, v)`, and
nothing else; 300 copies of `AA` give the runs `(255, AA)`, `(45, AA)`, the
output bytes `FF AA 2D AA`. -/
theorem compress_runs_replicate (uninit v : Byte) (n : Nat) (hn : 1 ≤ n) :
    compress_runs uninit (List.replicate n v)
      = List.replicate (n / 255) (255, v)
        ++ (if n % 255 ≠ 0 then [(n % 255, v)] else [])
    ∧ compress_bytes uninit (List.replicate n v)
      = (List.replicate (n / 255) [255, v]).flatten
        ++ (if n % 255 ≠ 0 then [Fin.ofNat (n % 255), v] else [])
    ∧ compress_runs uninit (List.replicate 300 0xAA) = [(255, 0xAA), (45, 0xAA)]
    ∧ compress_bytes uninit (List.replicate 300 0xAA) = [255, 0xAA, 45, 0xAA] := by
  have key : ∀ (w : Byte) (k : Nat), 1 ≤ k →
      compress_runs uninit (List.replicate k w)
        = List.replicate (k / 255) (255, w)
          ++ (if k % 255 ≠ 0 then [(k % 255, w)] else []) := by
    intro w k hk
    obtain ⟨m, rfl⟩ : ∃ m, k = m + 1 := ⟨k - 1, by omega⟩
    rw [List.replicate_succ]
    show compress_loop w 1 (List.replicate m w) = _
    rw [compress_loop_replicate w m 1 (by omega) (by omega), Nat.add_comm 1 m]
  have h300 := key 0xAA 300 (by omega)
  refine ⟨key v n hn, ?_, ?_, ?_⟩
  · unfold compress_bytes
    rw [key v n hn, List.flatMap_append, List.flatMap_def, List.map_replicate]
    have hf : flush (255, v) = [255, v] := rfl
    rw [hf]
    split <;> rfl
  · rw [h300]; rfl
  · unfold compress_bytes
    rw [h300]; rfl

theorem compress_runs_replicate_witness :
    1 ≤ 300
    ∧ (compress_runs 0 (List.replicate 300 0x41)
        = List.replicate (300 / 255) (255, 0x41)
          ++ (if 300 % 255 ≠ 0 then [(300 % 255, 0x41)] else [])
      ∧ compress_bytes 0 (List.replicate 300 0x41)
        = (List.replicate (300 / 255) [255, 0x41]).flatten
          ++ (if 300 % 255 ≠ 0 then [Fin.ofNat (300 % 255), 0x41] else [])
      ∧ compress_runs 0 (List.replicate 300 0xAA) = [(255, 0xAA), (45, 0xAA)]
      ∧ compress_bytes 0 (List.replicate 300 0xAA) = [255, 0xAA, 45, 0xAA]) :=
  ⟨by decide, compress_runs_replicate 0 0x41 300 (by decide)⟩

/-- C6 (empty input, violated by the code): on an empty file `compress`
writes no magic and flushes one run all the same, the counter 1 with the
indeterminate byte left in `current`: two bytes, not the four of the header.
`expand` on that output stops at the failed four-byte read. -/
theorem compress_empty_writes_spurious_run (uninit : Byte) :
    compress_bytes uninit [] = [0x01, uninit]
    ∧ (compress_bytes uninit []).length = 2
    ∧ compress_bytes uninit [] ≠ magic
    ∧ expand_stream (compress_bytes uninit []) = (.shortFile, []) := by
  refine ⟨rfl, rfl, ?_, rfl⟩
  intro h
  have hl : (2 : Nat) = 4 := congrArg List.length h
  exact absurd hl (by decide)

/-- C7 (no merging, violated by the code in the header only): for the file
`01 02 01` the output of `compress` is the three runs
`(1,01) (1,02) (1,01)` and nothing in front of them: the magic is missing. -/
theorem compress_alternating_no_magic (uninit : Byte) :
    compress_bytes uninit [0x01, 0x02, 0x01] = [0x01, 0x01, 0x01, 0x02, 0x01, 0x01]
    ∧ compress_bytes uninit [0x01, 0x02, 0x01]
        ≠ magic ++ [0x01, 0x01, 0x01, 0x02, 0x01, 0x01]
    ∧ compress_bytes uninit [0x10] ≠ magic ++ [0x01, 0x10] := by
  have h1 : compress_bytes uninit [0x01, 0x02, 0x01]
      = [0x01, 0x01, 0x01, 0x02, 0x01, 0x01] := rfl
  have h2 : compress_bytes uninit [0x10] = [0x01, 0x10] := rfl
  rw [h1, h2]
  decide

/-- C8 (corrupt header rejected): when the file `expand` is given holds fewer
than four bytes, or four first bytes other than `21 52 4C 45`, `expand` does
not reach its success path and writes no byte; with a name ending in `.rle`
and an output file it can create, it leaves through one of the two format
checks. -/
theorem expand_rejects_corrupt_header (w : World) (filename : CStr)
    (input : List Byte) (hread : w.read filename = some input)
    (hbad : input.length < 4 ∨ input.take 4 ≠ magic) :
    (expand w filename).status ≠ .expanded
    ∧ (expand w filename).written = []
    ∧ (expand w filename).printed = none
    ∧ (check_ext filename ≠ 0 → w.canCreate (filename ++ rleExt) = true →
        (expand w filename).status = .shortFile
        ∨ (expand w filename).status = .badMagic)
    ∧ (expand_stream input = (.shortFile, [])
        ∨ expand_stream input = (.badMagic, [])) := by
  have hs : expand_stream input = (.shortFile, [])
      ∨ expand_stream input = (.badMagic, []) := by
    unfold expand_stream
    by_cases hlen : input.length < 4
    · left; rw [if_pos hlen]
    · right
      rw [if_neg hlen]
      rcases hbad with h | h
      · exact absurd h hlen
      · rw [if_pos h]
  unfold expand
  simp only [hread]
  by_cases hext : check_ext filename = 0
  · simp [hext, hs]
  · by_cases hc : w.canCreate (filename ++ rleExt) = true
    · rcases hs with h | h <;> simp [hext, hc, h]
    · simp [hext, hc, hs]

theorem expand_rejects_corrupt_header_witness :
    World.read ⟨[(String.toList "x.rle", [0x00, 0x00, 0x00, 0x00, 0x01, 0xFF])], []⟩
        (String.toList "x.rle") = some [0x00, 0x00, 0x00, 0x00, 0x01, 0xFF]
    ∧ List.take 4 ([0x00, 0x00, 0x00, 0x00, 0x01, 0xFF] : List Byte) ≠ magic
    ∧ check_ext (String.toList "x.rle") ≠ 0
    ∧ World.canCreate
        ⟨[(String.toList "x.rle", [0x00, 0x00, 0x00, 0x00, 0x01, 0xFF])], []⟩
        (String.toList "x.rle" ++ rleExt) = true
    ∧ (expand ⟨[(String.toList "x.rle", [0x00, 0x00, 0x00, 0x00, 0x01, 0xFF])], []⟩
        (String.toList "x.rle")).status ≠ .expanded
    ∧ (expand ⟨[(String.toList "x.rle", [0x00, 0x00, 0x00, 0x00, 0x01, 0xFF])], []⟩
        (String.toList "x.rle")).written = []
    ∧ (expand ⟨[(String.toList "x.rle", [0x00, 0x00, 0x00, 0x00, 0x01, 0xFF])], []⟩
        (String.toList "x.rle")).printed = none
    ∧ ((expand ⟨[(String.toList "x.rle", [0x00, 0x00, 0x00, 0x00, 0x01, 0xFF])], []⟩
          (String.toList "x.rle")).status = .shortFile
        ∨ (expand ⟨[(String.toList "x.rle", [0x00, 0x00, 0x00, 0x00, 0x01, 0xFF])], []⟩
          (String.toList "x.rle")).status = .badMagic)
    ∧ (expand_stream [0x00, 0x00, 0x00, 0x00, 0x01, 0xFF] = (.shortFile, [])
        ∨ expand_stream [0x00, 0x00, 0x00, 0x00, 0x01, 0xFF] = (.badMagic, [])) :=
  have h := expand_rejects_corrupt_header
    ⟨[(String.toList "x.rle", [0x00, 0x00, 0x00, 0x00, 0x01, 0xFF])], []⟩
    (String.toList "x.rle") [0x00, 0x00, 0x00, 0x00, 0x01, 0xFF]
    (by decide) (Or.inr (by decide))
  ⟨by decide, by decide, by decide, by decide, h.1, h.2.1, h.2.2.1,
    h.2.2.2.1 (by decide) (by decide), h.2.2.2.2⟩

/-- C9 (truncated stream rejected, violated by the code): on the magic
followed by the single byte `03`, a count with no value, `expand` leaves
through its success path with nothing written. Whatever follows the magic,
the outcome is the same: after the `fseek` of line 256 no byte of the file is
read, so a dangling count cannot be noticed. -/
theorem expand_accepts_dangling_count :
    expand_stream (magic ++ [0x03]) = (.expanded, [])
    ∧ (expand ⟨[(String.toList "x.rle", magic ++ [0x03])], []⟩
        (String.toList "x.rle")).status = .expanded
    ∧ (expand ⟨[(String.toList "x.rle", magic ++ [0x03])], []⟩
        (String.toList "x.rle")).written = []
    ∧ ∀ tail : List Byte, expand_stream (magic ++ tail) = (.expanded, []) := by
  refine ⟨by decide, by decide, by decide, ?_⟩
  intro tail
  unfold expand_stream
  have hl : ¬ (magic ++ tail).length < 4 := by
    simp [magic]
  have ht : (magic ++ tail).take 4 = magic := by
    simp [magic]
  rw [if_neg hl, if_neg (not_not.2 ht)]

/-- C10 (decode output name, violated by the code): for the readable file
`test.bin.rle`, the name `expand` opens for writing is `test.bin.rle.rle`,
the supplied name with `.rle` appended; the name it then prints is
`test.bin.rle`. No file `test.bin` is opened. Whatever the name, the only
file `expand` ever opens for writing is the supplied name with `.rle`
appended. -/
theorem expand_opens_name_with_ext_appended :
    (expand ⟨[(String.toList "test.bin.rle", magic)], []⟩
      (String.toList "test.bin.rle")).opened = some (String.toList "test.bin.rle.rle")
    ∧ (expand ⟨[(String.toList "test.bin.rle", magic)], []⟩
      (String.toList "test.bin.rle")).printed = some (String.toList "test.bin.rle")
    ∧ (expand ⟨[(String.toList "test.bin.rle", magic)], []⟩
      (String.toList "test.bin.rle")).opened ≠ some (String.toList "test.bin")
    ∧ World.read (expand ⟨[(String.toList "test.bin.rle", magic)], []⟩
      (String.toList "test.bin.rle")).world (String.toList "test.bin") = none
    ∧ ∀ (w : World) (filename : CStr),
        (expand w filename).opened = none
        ∨ (expand w filename).opened = some (filename ++ rleExt) :=
  ⟨by decide, by decide, by decide, by decide, expand_opened_name⟩

/-- C11 (no file on rejected decode, violated by the code): for the file
`x.rle` holding `00 00 00 00 01 FF`, which lacks the magic, `expand` has
already opened its output file when it compares the magic: the file
`x.rle.rle`, absent before the call, exists and is empty after it, so the
world has changed. For the name `foo.txt`, which lacks `.rle`, the world is
left as it was. -/
theorem expand_bad_magic_leaves_file :
    (expand ⟨[(String.toList "x.rle", [0x00, 0x00, 0x00, 0x00, 0x01, 0xFF])], []⟩
      (String.toList "x.rle")).status = .badMagic
    ∧ World.read ⟨[(String.toList "x.rle", [0x00, 0x00, 0x00, 0x00, 0x01, 0xFF])], []⟩
        (String.toList "x.rle.rle") = none
    ∧ World.read
        (expand ⟨[(String.toList "x.rle", [0x00, 0x00, 0x00, 0x00, 0x01, 0xFF])], []⟩
          (String.toList "x.rle")).world
        (String.toList "x.rle.rle") = some []
    ∧ (expand ⟨[(String.toList "x.rle", [0x00, 0x00, 0x00, 0x00, 0x01, 0xFF])], []⟩
        (String.toList "x.rle")).world
        ≠ ⟨[(String.toList "x.rle", [0x00, 0x00, 0x00, 0x00, 0x01, 0xFF])], []⟩
    ∧ (expand ⟨[(String.toList "foo.txt", magic)], []⟩ (String.toList "foo.txt")).world
        = ⟨[(String.toList "foo.txt", magic)], []⟩ := by
  decide

/-- C12, as stated, fails: `main` called with `-x foo.txt` selects `expand`,
which rejects the name for its extension, and the exit status is 0. -/
theorem main_exit_zero_on_bad_extension :
    (expand ⟨[(String.toList "foo.txt", [0x01, 0x02])], []⟩
      (String.toList "foo.txt")).status = .badExtension
    ∧ (main ⟨[(String.toList "foo.txt", [0x01, 0x02])], []⟩ 0 ⟨[], 0⟩
        [String.toList "rle", String.toList "-x", String.toList "foo.txt"]).map Prod.fst
      = some 0 := by
  decide

/-- C12, amended: for every invocation of `main` whose arguments `get_parms`
accepts (a valid mode and a file name), the exit status is 0, whatever the
selected operation runs into: the four operations return nothing and `main`
returns 0 after the call. -/
theorem main_exit_zero_when_dispatched (w : World) (uninit : Byte) (parms : Parms)
    (argv : List CStr) (hvalid : (get_parms parms modeLetters argv).1 = 1) :
    (main w uninit parms argv).map Prod.fst = some 0 := by
  obtain ⟨w', hw⟩ := main_of_accepted w uninit parms argv (by rw [hvalid]; decide)
  rw [hw]
  rfl

theorem main_exit_zero_when_dispatched_witness :
    (get_parms ⟨[], 0⟩ modeLetters
        [String.toList "rle", String.toList "-c", String.toList "missing.bin"]).1 = 1
    ∧ (compress ⟨[], []⟩ 0 (String.toList "missing.bin")).status = .inputOpenFailed
    ∧ (main ⟨[], []⟩ 0 ⟨[], 0⟩
        [String.toList "rle", String.toList "-c", String.toList "missing.bin"]).map
          Prod.fst = some 0 :=
  ⟨by decide, by decide,
    main_exit_zero_when_dispatched ⟨[], []⟩ 0 ⟨[], 0⟩
      [String.toList "rle", String.toList "-c", String.toList "missing.bin"]
      (by decide)⟩

/-- C13 (extension check): `check_ext` returns 1 or 0, and it returns
non-zero exactly when the name ends with the four characters `.rle`, which
is to say when the name has at least four characters and its last four are
`.rle`; the bare name `.rle` is accepted. -/
theorem check_ext_iff_suffix (s : CStr) :
    (check_ext s = 1 ∨ check_ext s = 0)
    ∧ (check_ext s ≠ 0 ↔ rleExt <:+ s)
    ∧ (check_ext s ≠ 0 ↔ 4 ≤ s.length ∧ s.drop (s.length - 4) = rleExt)
    ∧ check_ext (String.toList ".rle") = 1 := by
  refine ⟨?_, check_ext_ne_zero_iff s, ?_, by decide⟩
  · unfold check_ext
    simp only
    split
    · exact Or.inl rfl
    · exact Or.inr rfl
  · unfold check_ext
    simp only
    constructor
    · intro h
      by_contra hc
      rw [if_neg hc] at h
      exact h rfl
    · intro hc
      rw [if_pos hc]
      decide

/-- C14 (file name round trip): for every name `f`, removing the extension
from `f` with `.rle` added gives `f` back, and `check_ext` accepts `f` with
`.rle` added; `test.txt.rle` becomes `test.txt`. -/
theorem filename_rm_ext_add_ext (f : CStr) :
    filename_rm_ext (filename_add_ext f rleExt) = f
    ∧ check_ext (filename_add_ext f rleExt) ≠ 0
    ∧ filename_rm_ext (String.toList "test.txt.rle") = String.toList "test.txt" := by
  refine ⟨?_, ?_, by decide⟩
  · unfold filename_rm_ext filename_add_ext
    rw [strrchr_append_rleExt]
    exact List.take_left f rleExt
  · rw [check_ext_ne_zero_iff]
    exact List.suffix_append f rleExt

/-- C18 (dispatch index in bounds): `get_parms` on the letters `cxdg` returns
1 or 0. When it returns 1, `parms.mode` is the position of the second
character of `argv[1]` in `cxdg`, it is below 4, the length of `action`,
and `main` finds an entry of `action` at that index. When the second
character of `argv[1]` is none of the four letters, as for the bare argument
`-`, it returns 0. -/
theorem get_parms_mode_in_bounds (parms : Parms) (argv : List CStr) :
    ((get_parms parms modeLetters argv).1 = 1
      ∨ (get_parms parms modeLetters argv).1 = 0)
    ∧ ((get_parms parms modeLetters argv).1 = 1 →
        (get_parms parms modeLetters argv).2.mode
            = modeLetters.indexOf (char_at (argv.getD 1 []) 1)
        ∧ modeLetters.get? (get_parms parms modeLetters argv).2.mode
            = some (char_at (argv.getD 1 []) 1)
        ∧ (get_parms parms modeLetters argv).2.mode < 4
        ∧ (get_parms parms modeLetters argv).2.mode < action.length
        ∧ ∀ (w : World) (uninit : Byte), main w uninit parms argv ≠ none)
    ∧ (char_at (argv.getD 1 []) 1 ∉ modeLetters →
        (get_parms parms modeLetters argv).1 = 0)
    ∧ ∀ prog file : CStr, (get_parms parms modeLetters [prog, ['-'], file]).1 = 0 := by
  have hbare : ∀ prog file : CStr,
      (get_parms parms modeLetters [prog, ['-'], file]).1 = 0 := by
    intro prog file
    rfl
  have h01 : (get_parms parms modeLetters argv).1 = 1
      ∨ (get_parms parms modeLetters argv).1 = 0 := by
    by_cases h : (get_parms parms modeLetters argv).1 = 0
    · exact Or.inr h
    · exact Or.inl (get_parms_accepts parms argv h).2.2.2.1
  refine ⟨h01, ?_, ?_, hbare⟩
  · intro h
    have hne : (get_parms parms modeLetters argv).1 ≠ 0 := by
      rw [h]; decide
    obtain ⟨_, _, _, _, hmode, hlt, _⟩ := get_parms_accepts parms argv hne
    refine ⟨?_, ?_, hlt, hlt, ?_⟩
    · rw [hmode]
      rcases mode_scan_modeLetters (char_at (argv.getD 1 []) 1) with
        ⟨hm, hs⟩ | ⟨hm, hs⟩ | ⟨hm, hs⟩ | ⟨hm, hs⟩ | ⟨_, hs⟩
      · rw [hs, hm]; decide
      · rw [hs, hm]; decide
      · rw [hs, hm]; decide
      · rw [hs, hm]; decide
      · rw [hmode, hs] at hlt
        exact absurd hlt (by decide)
    · rw [hmode]
      rcases mode_scan_modeLetters (char_at (argv.getD 1 []) 1) with
        ⟨hm, hs⟩ | ⟨hm, hs⟩ | ⟨hm, hs⟩ | ⟨hm, hs⟩ | ⟨_, hs⟩
      · rw [hs, hm]; decide
      · rw [hs, hm]; decide
      · rw [hs, hm]; decide
      · rw [hs, hm]; decide
      · rw [hmode, hs] at hlt
        exact absurd hlt (by decide)
    · intro w uninit
      obtain ⟨w', hw⟩ := main_of_accepted w uninit parms argv hne
      rw [hw]
      exact Option.some_ne_none _
  · intro hnot
    rcases h01 with h | h
    · have hne : (get_parms parms modeLetters argv).1 ≠ 0 := by
        rw [h]; decide
      exact absurd (get_parms_accepts parms argv hne).2.2.1 hnot
    · exact h

theorem get_parms_mode_in_bounds_witness :
    (get_parms ⟨[], 0⟩ modeLetters
        [String.toList "rle", String.toList "-g", String.toList "t.bin"]).1 = 1
    ∧ (get_parms ⟨[], 0⟩ modeLetters
        [String.toList "rle", String.toList "-g", String.toList "t.bin"]).2.mode = 3
    ∧ (get_parms ⟨[], 0⟩ modeLetters
        [String.toList "rle", String.toList "-g", String.toList "t.bin"]).2.mode < 4
    ∧ main ⟨[], []⟩ 0 ⟨[], 0⟩
        [String.toList "rle", String.toList "-g", String.toList "t.bin"] ≠ none
    ∧ char_at (List.getD
        [String.toList "rle", String.toList "-z", String.toList "t.bin"] 1 []) 1
        ∉ modeLetters
    ∧ (get_parms ⟨[], 0⟩ modeLetters
        [String.toList "rle", String.toList "-z", String.toList "t.bin"]).1 = 0 :=
  have h := get_parms_mode_in_bounds ⟨[], 0⟩
    [String.toList "rle", String.toList "-g", String.toList "t.bin"]
  have h2 := get_parms_mode_in_bounds ⟨[], 0⟩
    [String.toList "rle", String.toList "-z", String.toList "t.bin"]
  ⟨by decide, by decide, (h.2.1 (by decide)).2.2.1,
    (h.2.1 (by decide)).2.2.2.2 ⟨[], []⟩ 0, by decide, h2.2.2.1 (by decide)⟩

/-- C15 (greedy maximal runs): in the runs `compress` flushes, whenever a run
is directly followed by a run of the same value, the first of the two has
count 255. -/
theorem compress_runs_greedy (uninit : Byte) (input : List Byte) :
    List.Chain' (fun r1 r2 : Nat × Byte => r1.2 = r2.2 → r1.1 = 255)
      (compress_runs uninit input)
    ∧ ∀ (before after : List (Nat × Byte)) (r1 r2 : Nat × Byte),
        compress_runs uninit input = before ++ r1 :: r2 :: after →
        r1.2 = r2.2 → r1.1 = 255 := by
  have hch : List.Chain' (fun r1 r2 : Nat × Byte => r1.2 = r2.2 → r1.1 = 255)
      (compress_runs uninit input) := by
    cases input with
    | nil => exact compress_loop_greedy [] uninit 1 (by omega)
    | cons first rest => exact compress_loop_greedy rest first 1 (by omega)
  refine ⟨hch, ?_⟩
  intro before after r1 r2 hsplit hsame
  rw [hsplit] at hch
  have h2 := (List.chain'_split.1 hch).2
  exact (List.chain'_cons.1 h2).1 hsame

set_option maxRecDepth 100000 in
theorem compress_runs_greedy_witness :
    compress_runs 0 ([5] ++ List.replicate 256 7 ++ [9])
        = [(1, 5)] ++ (255, 7) :: (1, 7) :: [(1, 9)]
    ∧ ((255, 7) : Nat × Byte).2 = ((1, 7) : Nat × Byte).2
    ∧ ((255, 7) : Nat × Byte).1 = 255 :=
  ⟨by decide, rfl,
    (compress_runs_greedy 0 ([5] ++ List.replicate 256 7 ++ [9])).2
      [(1, 5)] [(1, 9)] (255, 7) (1, 7) (by decide) rfl⟩

/-- C16 (runs reproduce the input): for a non-empty file, the bytes
`compress` writes are the flushed runs, two bytes each, and however those
bytes are read as (count, value) pairs, writing out each value repeated count
times, in order, gives the file contents back. The same holds of the runs as
flushed, and with each count taken from the byte written for it. -/
theorem compress_runs_unfold (uninit : Byte) (input : List Byte) (hne : input ≠ []) :
    compress_bytes uninit input
        = ((compress_runs uninit input).map
            fun run => ((Fin.ofNat run.1 : Byte), run.2)).flatMap
            (fun r => [r.1, r.2])
    ∧ (∀ records : List (Byte × Byte),
        compress_bytes uninit input = records.flatMap (fun r => [r.1, r.2]) →
        records.flatMap (fun r => List.replicate r.1.val r.2) = input)
    ∧ (compress_runs uninit input).flatMap (fun run => List.replicate run.1 run.2)
        = input
    ∧ (compress_runs uninit input).flatMap
        (fun run => List.replicate (Fin.ofNat run.1 : Byte).val run.2) = input := by
  have h1 : (compress_runs uninit input).flatMap
      (fun run => List.replicate run.1 run.2) = input := by
    cases input with
    | nil => exact absurd rfl hne
    | cons first rest =>
      show (compress_loop first 1 rest).flatMap _ = _
      rw [compress_loop_unfold rest first 1]
      rfl
  have hmap : (compress_runs uninit input).map
        (fun run => List.replicate (Fin.ofNat run.1 : Byte).val run.2)
      = (compress_runs uninit input).map (fun run => List.replicate run.1 run.2) := by
    apply List.map_congr_left
    intro run hr
    have hrange := compress_runs_count_range uninit input run hr
    have hv : (Fin.ofNat run.1 : Byte).val = run.1 := by
      show run.1 % 256 = run.1
      exact Nat.mod_eq_of_lt (by omega)
    rw [hv]
  have h2 : (compress_runs uninit input).flatMap
      (fun run => List.replicate (Fin.ofNat run.1 : Byte).val run.2) = input := by
    rw [List.flatMap_def, hmap, ← List.flatMap_def]
    exact h1
  have hbytes : compress_bytes uninit input
      = ((compress_runs uninit input).map
          fun run => ((Fin.ofNat run.1 : Byte), run.2)).flatMap
          (fun r => [r.1, r.2]) :=
    (flatMap_pairs_of_runs (compress_runs uninit input)).symm
  refine ⟨hbytes, ?_, h1, h2⟩
  intro records hrec
  have heq : records = (compress_runs uninit input).map
      fun run => ((Fin.ofNat run.1 : Byte), run.2) :=
    flatMap_pairs_injective _ _ (hrec.symm.trans hbytes)
  rw [heq, List.flatMap_def, List.map_map, ← List.flatMap_def]
  exact h2

theorem compress_runs_unfold_witness :
    ([7, 7, 9] : List Byte) ≠ []
    ∧ compress_bytes 0 [7, 7, 9]
        = List.flatMap ([(2, 7), (1, 9)] : List (Byte × Byte)) (fun r => [r.1, r.2])
    ∧ compress_bytes 0 [7, 7, 9] = [2, 7, 1, 9]
    ∧ List.flatMap ([(2, 7), (1, 9)] : List (Byte × Byte))
        (fun r => List.replicate r.1.val r.2) = [7, 7, 9] :=
  ⟨by decide, by decide, by decide,
    (compress_runs_unfold 0 [7, 7, 9] (by decide)).2.1 [(2, 7), (1, 9)] (by decide)⟩

/-- C17 (worst-case size): for a non-empty file of `n` bytes, the number of
bytes `compress` writes is even, at least 2 and at most `2 * n`, and it is
`2 * n` exactly when no two adjacent bytes of the file are equal. -/
theorem compress_bytes_length_bounds (uninit : Byte) (input : List Byte)
    (hne : input ≠ []) :
    (compress_bytes uninit input).length % 2 = 0
    ∧ 2 ≤ (compress_bytes uninit input).length
    ∧ (compress_bytes uninit input).length ≤ 2 * input.length
    ∧ ((compress_bytes uninit input).length = 2 * input.length
        ↔ List.Chain' (fun a b => a ≠ b) input) := by
  cases input with
  | nil => exact absurd rfl hne
  | cons first rest =>
    have hlen : (compress_bytes uninit (first :: rest)).length
        = 2 * (compress_loop first 1 rest).length :=
      flatMap_flush_length _
    have hb := compress_loop_length_le rest first 1
    have hiff := compress_loop_length_eq_iff rest first 1 (by omega)
    rw [hlen, List.length_cons]
    refine ⟨by omega, by omega, by omega, ?_⟩
    show _ ↔ List.Chain (fun a b => a ≠ b) first rest
    rw [← hiff]
    constructor <;> intro h <;> omega

theorem compress_bytes_length_bounds_witness :
    ([1, 2, 1] : List Byte) ≠ []
    ∧ ((compress_bytes 0 [1, 2, 1]).length % 2 = 0
      ∧ 2 ≤ (compress_bytes 0 [1, 2, 1]).length
      ∧ (compress_bytes 0 [1, 2, 1]).length ≤ 2 * ([1, 2, 1] : List Byte).length
      ∧ ((compress_bytes 0 [1, 2, 1]).length = 2 * ([1, 2, 1] : List Byte).length
          ↔ List.Chain' (fun a b => a ≠ b) ([1, 2, 1] : List Byte))) :=
  ⟨by decide, compress_bytes_length_bounds 0 [1, 2, 1] (by decide)⟩

end RLE
